import Mathlib

/-!
Shallow embedding of the real-time chat server of this repository
(`server/server.js`, together with the revised copy of the same file).
Connection identities, room names, user names and message ids are strings;
timestamps are natural numbers; the MongoDB message collection is a list of
message documents; the in-memory `activeUsers` JavaScript `Map` is an
association list in insertion order; Socket.IO room membership maintained by
`socket.join` / `socket.leave` is a list of (connection, room) pairs.
Each event handler is a pure function from the server state and the event
payload (plus the freshly generated ObjectIds and the current time) to the
new state and the ordered list of emissions it performs.
-/

/-- A record of the in-memory `activeUsers` map:
`{ id: socket.id, username, room }` (server.js, joinRoom handler). -/
structure User where
  id : String
  username : String
  room : String
deriving DecidableEq

/-- A persisted chat message document (the mongoose `messageSchema`).
`timestamp` is modelled as a natural number; `senderId` and `recipientId`
are optional and only set for private messages. -/
structure Message where
  id : String
  username : String
  text : String
  room : String
  timestamp : Nat
  readBy : List String
  isPrivate : Bool
  senderId : Option String := none
  recipientId : Option String := none
deriving DecidableEq

/-- The in-memory `activeUsers` JavaScript `Map`, keyed by `socket.id`,
modelled as an association list in insertion order. -/
abbrev ActiveUsers := List (String × User)

/-- `Map.prototype.get`: value of the (first) entry with the given key. -/
def mapGet : ActiveUsers → String → Option User
  | [], _ => none
  | p :: ps, k => if p.1 == k then some p.2 else mapGet ps k

/-- `Map.prototype.has`. -/
def mapHas (m : ActiveUsers) (k : String) : Bool :=
  (mapGet m k).isSome

/-- `Map.prototype.set`: replace the value of an existing key in place,
otherwise append (JavaScript Maps preserve insertion order). -/
def mapSet : ActiveUsers → String → User → ActiveUsers
  | [], k, v => [(k, v)]
  | p :: ps, k, v => if p.1 == k then (k, v) :: ps else p :: mapSet ps k v

/-- `Map.prototype.delete`: remove the entry with the given key. -/
def mapDelete : ActiveUsers → String → ActiveUsers
  | [], _ => []
  | p :: ps, k => if p.1 == k then mapDelete ps k else p :: mapDelete ps k

/-- `Array.from(activeUsers.values())`. -/
def mapValues (m : ActiveUsers) : List User :=
  m.map (fun p => p.2)

/-- The keys of the map, in order. -/
def mapKeys (m : ActiveUsers) : List String :=
  m.map (fun p => p.1)

/-- Transport-level chat-room membership maintained by Socket.IO:
the set of (connection, room) pairs produced by `socket.join`. -/
abbrev Transport := List (String × String)

/-- `socket.join(room)`: add the pair if it is not already a member. -/
def joinT (t : Transport) (c r : String) : Transport :=
  if (c, r) ∈ t then t else t ++ [(c, r)]

/-- `socket.leave(room)`. -/
def leaveT (t : Transport) (c r : String) : Transport :=
  t.filter (fun p => !(p.1 == c && p.2 == r))

/-- On transport `disconnect`, Socket.IO removes the socket from
all of its rooms. -/
def clearT (t : Transport) (c : String) : Transport :=
  t.filter (fun p => !(p.1 == c))

/-- The rooms a connection is currently joined to at transport level. -/
def roomsOf (t : Transport) (c : String) : List String :=
  (t.filter (fun p => p.1 == c)).map (fun p => p.2)

/-- The whole mutable state of the server: the `activeUsers` map, the
MongoDB message collection, and Socket.IO room membership. -/
structure ServerState where
  users : ActiveUsers
  store : List Message
  transport : Transport
deriving DecidableEq

/-- The recipient scope of one `emit` call. -/
inductive Target where
  /-- `socket.emit(...)` on the connection itself, or `io.to(socketId)`:
  a single connection. -/
  | toOne (conn : String)
  /-- `socket.to(room).emit(...)`: everyone in the room except the sender. -/
  | toRoomExceptSender (room conn : String)
  /-- `io.to(room).emit(...)`: everyone in the room. -/
  | toRoom (room : String)
deriving DecidableEq

/-- The payload of one `emit` call.  The JavaScript code sends both
persisted message documents and ad-hoc ChatBot objects (which have no
`room`, `readBy` or `isPrivate` fields) under the same `message` event
name; the two object shapes are distinguished here. -/
inductive Payload where
  /-- A persisted message document sent under the `message` event. -/
  | message (m : Message)
  /-- An ad-hoc ChatBot object `{username, text, timestamp, id}` sent
  under the `message` event. -/
  | notice (username text : String) (timestamp : Nat) (id : String)
  /-- The `roomUsers` event. -/
  | roomUsers (us : List User)
  /-- The `roomMessages` event (history replay batch). -/
  | roomMessages (ms : List Message)
  /-- The `messageUpdated` event. -/
  | messageUpdated (m : Message)
  /-- The `typing` event. -/
  | typing (name : String)
  /-- The `stopTyping` event. -/
  | stopTyping (name : String)
deriving DecidableEq

/-- One `emit` call: a recipient scope and a payload. -/
structure Emission where
  target : Target
  payload : Payload
deriving DecidableEq

/-- The connections a target resolves to at dispatch time.
`io.to(room)` reaches the sockets that joined `room`; `io.to(socketId)`
reaches that single socket (every socket is auto-joined to the room named
by its own id); `socket.to(room)` excludes the sender. -/
def recipientsOf (s : ServerState) : Target → List String
  | .toOne c => [c]
  | .toRoom r => (s.transport.filter (fun p => p.2 == r)).map (fun p => p.1)
  | .toRoomExceptSender r c =>
      (s.transport.filter (fun p => p.2 == r && !(p.1 == c))).map (fun p => p.1)

/-- Timestamp order on messages (Mongo `.sort({ timestamp: 1 })`). -/
def tsLe (a b : Message) : Prop := a.timestamp ≤ b.timestamp

instance : DecidableRel tsLe := fun a b => Nat.decLe a.timestamp b.timestamp

instance : IsTotal Message tsLe := ⟨fun a b => Nat.le_total a.timestamp b.timestamp⟩

instance : IsTrans Message tsLe := ⟨fun _ _ _ hab hbc => Nat.le_trans hab hbc⟩

/-- `Message.find({ room, isPrivate: false }).sort({ timestamp: 1 })`:
all non-private messages of the room, in ascending timestamp order. -/
def findRoomHistory (store : List Message) (room : String) : List Message :=
  List.insertionSort tsLe (store.filter (fun m => m.room == room && m.isPrivate == false))

/-- `Message.findOne({ id: messageId, room: roomId })`. -/
def findMsg (store : List Message) (mid rid : String) : Option Message :=
  store.find? (fun m => m.id == mid && m.room == rid)

/-- `messageToUpdate.save()`: replace the found document (the first one
matching the `findOne` query) in the collection. -/
def saveMsg : List Message → String → String → Message → List Message
  | [], _, _, _ => []
  | x :: xs, mid, rid, m =>
      if x.id == mid && x.room == rid then m :: xs
      else x :: saveMsg xs mid rid m

/-- The `joinRoom` handler of server.js.  `wid` and `jid` are the fresh
ObjectIds generated for the welcome and join notices and `now` is the
current time.  Returns the new state and the emissions in program order. -/
def joinRoom (s : ServerState) (conn username room : String)
    (wid jid : String) (now : Nat) : ServerState × List Emission :=
  let prevEms : List Emission :=
    match mapGet s.users conn with
    | some prevUser =>
        [⟨Target.toRoom prevUser.room,
          Payload.roomUsers ((mapValues s.users).filter
            (fun u => u.room == prevUser.room && !(u.id == conn)))⟩]
    | none => []
  let t1 : Transport :=
    match mapGet s.users conn with
    | some prevUser => leaveT s.transport conn prevUser.room
    | none => s.transport
  let user : User := ⟨conn, username, room⟩
  let users1 := mapSet s.users conn user
  let t2 := joinT t1 conn room
  let history := findRoomHistory s.store room
  (⟨users1, s.store, t2⟩,
    prevEms ++
    [⟨Target.toOne conn,
      Payload.notice "ChatBot"
        ("Welcome to the " ++ room ++ " chat room, " ++ username ++ "!") now wid⟩,
     ⟨Target.toRoomExceptSender room conn,
      Payload.notice "ChatBot" (username ++ " has joined the chat.") now jid⟩,
     ⟨Target.toRoom room,
      Payload.roomUsers ((mapValues users1).filter (fun u => u.room == room))⟩,
     ⟨Target.toOne conn, Payload.roomMessages history⟩])

/-- The `chatMessage` handler of server.js.  `mid` is the fresh ObjectId
and `now` the current time. -/
def chatMessage (s : ServerState) (conn msgText mid : String) (now : Nat) :
    ServerState × List Emission :=
  match mapGet s.users conn with
  | some user =>
      let message : Message :=
        { id := mid, username := user.username, text := msgText,
          room := user.room, timestamp := now, readBy := [user.id],
          isPrivate := false }
      (⟨s.users, s.store ++ [message], s.transport⟩,
        [⟨Target.toRoom user.room, Payload.message message⟩])
  | none =>
      (s, [⟨Target.toOne conn,
            Payload.notice "ChatBot"
              "Error: You are not recognized. Please rejoin the chat." now mid⟩])

/-- The `messageRead` handler of server.js. -/
def messageRead (s : ServerState) (conn messageId roomId : String) :
    ServerState × List Emission :=
  match mapGet s.users conn with
  | none => (s, [])
  | some user =>
      match findMsg s.store messageId roomId with
      | none => (s, [])
      | some m =>
          if user.id ∈ m.readBy then (s, [])
          else
            let m2 : Message := { m with readBy := m.readBy ++ [user.id] }
            (⟨s.users, saveMsg s.store messageId roomId m2, s.transport⟩,
              [⟨Target.toRoom roomId, Payload.messageUpdated m2⟩])

/-- The private-chat room value written by server.js:
the template literal `private_${sender.id}_${recipient.id}`. -/
def deriveRoomJs (senderId recipientId : String) : String :=
  "private_" ++ senderId ++ "_" ++ recipientId

/-- Lexicographic comparison of two character sequences by code unit, as
JavaScript's default `Array.prototype.sort` comparison of strings. -/
def strLt : List Char → List Char → Bool
  | [], [] => false
  | [], _ :: _ => true
  | _ :: _, [] => false
  | a :: as, b :: bs =>
      if a.toNat < b.toNat then true
      else if b.toNat < a.toNat then false
      else strLt as bs

/-- The private-chat room value written by the revised server:
`[sender.id, recipient.id].sort().join('-')` (lexicographic sort of the
two identities, then joined with a dash). -/
def deriveRoomSorted (a b : String) : String :=
  if strLt a.data b.data then a ++ "-" ++ b
  else if strLt b.data a.data then b ++ "-" ++ a
  else a ++ "-" ++ b

/-- The `privateMessage` handler of server.js. -/
def privateMessage (s : ServerState) (conn recipientId msgText mid : String)
    (now : Nat) : ServerState × List Emission :=
  match mapGet s.users conn, mapGet s.users recipientId with
  | some sender, some recipient =>
      let privateMsg : Message :=
        { id := mid, username := sender.username, text := msgText,
          room := deriveRoomJs sender.id recipient.id,
          timestamp := now, readBy := [sender.id], isPrivate := true,
          senderId := some sender.id, recipientId := some recipient.id }
      (⟨s.users, s.store ++ [privateMsg], s.transport⟩,
        [⟨Target.toOne recipientId, Payload.message privateMsg⟩,
         ⟨Target.toOne conn, Payload.message privateMsg⟩])
  | _, _ =>
      (s, [⟨Target.toOne conn,
            Payload.notice "ChatBot"
              "Error: Recipient not found or offline for private message." now mid⟩])

/-- The `privateMessage` handler of the revised copy of the server, which
derives the room with the sorted join. -/
def privateMessageV2 (s : ServerState) (conn recipientId msgText mid : String)
    (now : Nat) : ServerState × List Emission :=
  match mapGet s.users conn, mapGet s.users recipientId with
  | some sender, some recipient =>
      let privateMsg : Message :=
        { id := mid, username := sender.username, text := msgText,
          room := deriveRoomSorted sender.id recipient.id,
          timestamp := now, readBy := [sender.id], isPrivate := true,
          senderId := some sender.id, recipientId := some recipient.id }
      (⟨s.users, s.store ++ [privateMsg], s.transport⟩,
        [⟨Target.toOne recipientId, Payload.message privateMsg⟩,
         ⟨Target.toOne conn, Payload.message privateMsg⟩])
  | _, _ =>
      (s, [⟨Target.toOne conn,
            Payload.notice "ChatBot"
              "Error: Invalid sender or recipient for private message." now mid⟩])

/-- The `leaveRoom` handler of server.js.  `lid` is the fresh ObjectId of
the leave notice. -/
def leaveRoom (s : ServerState) (conn lid : String) (now : Nat) :
    ServerState × List Emission :=
  match mapGet s.users conn with
  | none => (s, [])
  | some user =>
      let t1 := leaveT s.transport conn user.room
      let users1 := mapDelete s.users conn
      (⟨users1, s.store, t1⟩,
        [⟨Target.toRoomExceptSender user.room conn,
          Payload.notice "ChatBot" (user.username ++ " has left the chat.") now lid⟩,
         ⟨Target.toRoom user.room,
          Payload.roomUsers ((mapValues users1).filter (fun u => u.room == user.room))⟩])

/-- The `disconnect` handler of server.js.  `did` is the fresh ObjectId of
the leave notice. -/
def disconnect (s : ServerState) (conn did : String) (now : Nat) :
    ServerState × List Emission :=
  match mapGet s.users conn with
  | none => (⟨s.users, s.store, clearT s.transport conn⟩, [])
  | some user =>
      let users1 := mapDelete s.users conn
      let t1 := clearT s.transport conn
      let currentRoomUsers := (mapValues users1).filter (fun u => u.room == user.room)
      if currentRoomUsers.isEmpty then (⟨users1, s.store, t1⟩, [])
      else
        (⟨users1, s.store, t1⟩,
          [⟨Target.toRoomExceptSender user.room conn,
            Payload.notice "ChatBot" (user.username ++ " has left the chat.") now did⟩,
           ⟨Target.toRoom user.room, Payload.roomUsers currentRoomUsers⟩])

/-- A presence-affecting connection event (for the presence invariant). -/
inductive Event where
  | join (conn username room : String)
  | leave (conn : String)
  | disc (conn : String)

/-- The state transition performed by one event (the fresh ids and times
only influence emissions, not the state, so dummies are passed). -/
def step (s : ServerState) : Event → ServerState
  | .join c u r => (joinRoom s c u r "" "" 0).1
  | .leave c => (leaveRoom s c "" 0).1
  | .disc c => (disconnect s c "" 0).1

/-- Run a sequence of events from a state. -/
def runEvents (s : ServerState) (evs : List Event) : ServerState :=
  evs.foldl step s

/-- The state of a freshly started server: no presences, empty collection,
no room membership. -/
def initState : ServerState := ⟨[], [], []⟩

/-- Specification-side function (from the spec text, for the refinement
claim about the presence table): the presence a connection should have
after a sequence of events, namely the record of its most recent join not
followed by a leave or disconnect of the same connection; `init` is its
presence before the sequence. -/
def lastSuccessfulJoin (init : Option User) (conn : String) :
    List Event → Option User
  | [] => init
  | ev :: evs =>
      lastSuccessfulJoin
        (match ev with
         | .join c u r => if c == conn then some ⟨c, u, r⟩ else init
         | .leave c => if c == conn then none else init
         | .disc c => if c == conn then none else init)
        conn evs

/-- The room recorded for a connection by the presence table, as a list
(empty when the connection has no presence). -/
def optRoom : Option User → List String
  | some u => [u.room]
  | none => []

/-- Agreement of transport-level room membership with the presence table. -/
def transportInv (s : ServerState) : Prop :=
  ∀ c, roomsOf s.transport c = optRoom (mapGet s.users c)

/-- Reachable-state invariant: the `activeUsers` keys are distinct and
Socket.IO chat-room membership agrees with the presence table. -/
def StateInv (s : ServerState) : Prop :=
  (mapKeys s.users).Nodup ∧ transportInv s

/-! ### Basic lemmas about the map and transport operations -/

theorem mapGet_mapSet_self (m : ActiveUsers) (k : String) (v : User) :
    mapGet (mapSet m k v) k = some v := by
  induction m with
  | nil => simp [mapSet, mapGet]
  | cons p ps ih =>
      rcases p with ⟨a, b⟩
      by_cases h : a = k
      · subst h
        simp [mapSet, mapGet]
      · simp [mapSet, mapGet, h, ih]

theorem mapGet_mapSet_ne (m : ActiveUsers) (k : String) (v : User) (k2 : String)
    (h : k2 ≠ k) : mapGet (mapSet m k v) k2 = mapGet m k2 := by
  induction m with
  | nil => simp [mapSet, mapGet, Ne.symm h]
  | cons p ps ih =>
      rcases p with ⟨a, b⟩
      by_cases hp : a = k
      · subst hp
        simp [mapSet, mapGet, Ne.symm h]
      · simp [mapSet, mapGet, hp, ih]

theorem mapGet_mapDelete_self (m : ActiveUsers) (k : String) :
    mapGet (mapDelete m k) k = none := by
  induction m with
  | nil => simp [mapDelete, mapGet]
  | cons p ps ih =>
      rcases p with ⟨a, b⟩
      by_cases h : a = k
      · simp [mapDelete, h, ih]
      · simp [mapDelete, mapGet, h, ih]

theorem mapGet_mapDelete_ne (m : ActiveUsers) (k k2 : String) (h : k2 ≠ k) :
    mapGet (mapDelete m k) k2 = mapGet m k2 := by
  induction m with
  | nil => simp [mapDelete]
  | cons p ps ih =>
      rcases p with ⟨a, b⟩
      by_cases hp : a = k
      · subst hp
        simp [mapDelete, mapGet, Ne.symm h, ih]
      · simp [mapDelete, mapGet, hp, ih]

theorem mem_mapKeys_mapSet (m : ActiveUsers) (k : String) (v : User) (a : String) :
    a ∈ mapKeys (mapSet m k v) ↔ a ∈ mapKeys m ∨ a = k := by
  induction m with
  | nil => simp [mapSet, mapKeys]
  | cons p ps ih =>
      rcases p with ⟨x, y⟩
      by_cases h : x = k
      · subst h
        simp only [mapSet, beq_self_eq_true, if_true, mapKeys, List.map_cons,
          List.mem_cons]
        tauto
      · simp only [mapSet, beq_iff_eq, h, if_false, mapKeys, List.map_cons,
          List.mem_cons]
        rw [mapKeys] at ih
        rw [ih]
        tauto

theorem nodup_mapKeys_mapSet (m : ActiveUsers) (k : String) (v : User)
    (h : (mapKeys m).Nodup) : (mapKeys (mapSet m k v)).Nodup := by
  induction m with
  | nil => simp [mapSet, mapKeys]
  | cons p ps ih =>
      rcases p with ⟨x, y⟩
      simp only [mapKeys, List.map_cons, List.nodup_cons] at h
      by_cases hp : x = k
      · subst hp
        simpa only [mapSet, beq_self_eq_true, if_true, mapKeys, List.map_cons,
          List.nodup_cons] using h
      · simp only [mapSet, beq_iff_eq, hp, if_false, mapKeys, List.map_cons,
          List.nodup_cons]
        refine ⟨fun hmem => ?_, ih h.2⟩
        rcases (mem_mapKeys_mapSet ps k v x).mp hmem with hm | rfl
        · exact h.1 hm
        · exact hp rfl

theorem mem_mapKeys_mapDelete (m : ActiveUsers) (k a : String)
    (h : a ∈ mapKeys (mapDelete m k)) : a ∈ mapKeys m := by
  induction m with
  | nil => simpa [mapDelete] using h
  | cons p ps ih =>
      rcases p with ⟨x, y⟩
      by_cases hp : x = k
      · simp only [mapDelete, beq_iff_eq, hp, if_true] at h
        exact List.mem_cons_of_mem _ (ih h)
      · simp only [mapDelete, beq_iff_eq, hp, if_false, mapKeys, List.map_cons,
          List.mem_cons] at h ⊢
        rcases h with rfl | h
        · exact Or.inl rfl
        · exact Or.inr (ih h)

theorem nodup_mapKeys_mapDelete (m : ActiveUsers) (k : String)
    (h : (mapKeys m).Nodup) : (mapKeys (mapDelete m k)).Nodup := by
  induction m with
  | nil => simp [mapDelete, mapKeys]
  | cons p ps ih =>
      rcases p with ⟨x, y⟩
      simp only [mapKeys, List.map_cons, List.nodup_cons] at h
      by_cases hp : x = k
      · simp only [mapDelete, beq_iff_eq, hp, if_true]
        exact ih h.2
      · simp only [mapDelete, beq_iff_eq, hp, if_false, mapKeys, List.map_cons,
          List.nodup_cons]
        exact ⟨fun hm => h.1 (mem_mapKeys_mapDelete ps k x hm), ih h.2⟩

theorem roomsOf_nil (c : String) : roomsOf [] c = [] := rfl

theorem roomsOf_cons (a b : String) (t : Transport) (c : String) :
    roomsOf ((a, b) :: t) c =
      if a = c then b :: roomsOf t c else roomsOf t c := by
  unfold roomsOf
  rw [List.filter_cons]
  by_cases h : a = c <;> simp [h]

theorem leaveT_cons (a b : String) (t : Transport) (c r : String) :
    leaveT ((a, b) :: t) c r =
      if a = c ∧ b = r then leaveT t c r else (a, b) :: leaveT t c r := by
  unfold leaveT
  rw [List.filter_cons]
  by_cases h1 : a = c <;> by_cases h2 : b = r <;> simp [h1, h2]

theorem clearT_cons (a b : String) (t : Transport) (c : String) :
    clearT ((a, b) :: t) c =
      if a = c then clearT t c else (a, b) :: clearT t c := by
  unfold clearT
  rw [List.filter_cons]
  by_cases h : a = c <;> simp [h]

theorem mem_roomsOf (t : Transport) (c r : String) (h : (c, r) ∈ t) :
    r ∈ roomsOf t c := by
  simp only [roomsOf, List.mem_map, List.mem_filter]
  exact ⟨(c, r), ⟨h, by simp⟩, rfl⟩

theorem roomsOf_append (t1 t2 : Transport) (c : String) :
    roomsOf (t1 ++ t2) c = roomsOf t1 c ++ roomsOf t2 c := by
  simp [roomsOf, List.filter_append]

theorem roomsOf_singleton_self (c r : String) : roomsOf [(c, r)] c = [r] := by
  simp [roomsOf]

theorem roomsOf_singleton_ne (c r c2 : String) (h : c2 ≠ c) :
    roomsOf [(c, r)] c2 = [] := by
  simp [roomsOf, Ne.symm h]

theorem roomsOf_leaveT_self (t : Transport) (c r : String) :
    roomsOf (leaveT t c r) c = (roomsOf t c).filter (fun x => !(x == r)) := by
  induction t with
  | nil => simp [leaveT, roomsOf]
  | cons p ps ih =>
      rcases p with ⟨a, b⟩
      by_cases h1 : a = c
      · subst h1
        by_cases h2 : b = r
        · subst h2
          simp [leaveT_cons, roomsOf_cons, ih, List.filter_cons]
        · simp [leaveT_cons, roomsOf_cons, h2, ih, List.filter_cons]
      · simp [leaveT_cons, roomsOf_cons, h1, ih]

theorem roomsOf_leaveT_ne (t : Transport) (c r c2 : String) (h : c2 ≠ c) :
    roomsOf (leaveT t c r) c2 = roomsOf t c2 := by
  induction t with
  | nil => simp [leaveT, roomsOf]
  | cons p ps ih =>
      rcases p with ⟨a, b⟩
      by_cases h1 : a = c
      · subst h1
        by_cases h2 : b = r
        · subst h2
          simp [leaveT_cons, roomsOf_cons, Ne.symm h, ih]
        · simp [leaveT_cons, roomsOf_cons, h2, Ne.symm h, ih]
      · by_cases h3 : a = c2
        · subst h3
          simp [leaveT_cons, roomsOf_cons, h1, ih]
        · simp [leaveT_cons, roomsOf_cons, h1, h3, ih]

theorem roomsOf_clearT_self (t : Transport) (c : String) :
    roomsOf (clearT t c) c = [] := by
  induction t with
  | nil => simp [clearT, roomsOf]
  | cons p ps ih =>
      rcases p with ⟨a, b⟩
      by_cases h : a = c
      · subst h
        simp [clearT_cons, ih]
      · simp [clearT_cons, roomsOf_cons, h, ih]

theorem roomsOf_clearT_ne (t : Transport) (c c2 : String) (h : c2 ≠ c) :
    roomsOf (clearT t c) c2 = roomsOf t c2 := by
  induction t with
  | nil => simp [clearT, roomsOf]
  | cons p ps ih =>
      rcases p with ⟨a, b⟩
      by_cases h1 : a = c
      · subst h1
        simp [clearT_cons, roomsOf_cons, Ne.symm h, ih]
      · by_cases h2 : a = c2
        · subst h2
          simp [clearT_cons, roomsOf_cons, h1, ih]
        · simp [clearT_cons, roomsOf_cons, h1, h2, ih]

theorem roomsOf_joinT_self (t : Transport) (c r : String)
    (h : roomsOf t c = []) : roomsOf (joinT t c r) c = [r] := by
  unfold joinT
  by_cases hm : (c, r) ∈ t
  · exact absurd (h ▸ mem_roomsOf t c r hm) (List.not_mem_nil r)
  · rw [if_neg hm, roomsOf_append, h, roomsOf_singleton_self]
    rfl

theorem roomsOf_joinT_ne (t : Transport) (c r c2 : String) (h : c2 ≠ c) :
    roomsOf (joinT t c r) c2 = roomsOf t c2 := by
  unfold joinT
  by_cases hm : (c, r) ∈ t
  · rw [if_pos hm]
  · rw [if_neg hm, roomsOf_append, roomsOf_singleton_ne c r c2 h, List.append_nil]

/-! ### Claim theorems: error handling and the private-message room -/

/-- C10: a `messageRead` event from a connection with no presence record is
a silent no-op: the state (in particular the message store) is unchanged
and nothing is emitted, not even a system-notice to the sender. -/
theorem messageRead_no_presence_noop (s : ServerState)
    (conn messageId roomId : String) (h : mapGet s.users conn = none) :
    messageRead s conn messageId roomId = (s, []) := by
  simp [messageRead, h]

theorem messageRead_no_presence_noop_witness :
    mapGet initState.users "X" = none ∧
    messageRead initState "X" "m1" "general" = (initState, []) :=
  ⟨rfl, messageRead_no_presence_noop initState "X" "m1" "general" rfl⟩

/-- C5: a `chatMessage` from a connection with no presence performs zero
message-store writes (the whole state is unchanged) and emits exactly one
system-notice, whose recipient set is the sending connection only. -/
theorem chatMessage_no_presence (s : ServerState) (conn msgText mid : String)
    (now : Nat) (h : mapGet s.users conn = none) :
    chatMessage s conn msgText mid now =
      (s, [⟨Target.toOne conn,
            Payload.notice "ChatBot"
              "Error: You are not recognized. Please rejoin the chat." now mid⟩]) ∧
    recipientsOf s (Target.toOne conn) = [conn] := by
  refine ⟨?_, rfl⟩
  simp [chatMessage, h]

theorem chatMessage_no_presence_witness :
    mapGet initState.users "X" = none ∧
    (chatMessage initState "X" "hi" "m1" 5 =
      (initState, [⟨Target.toOne "X",
            Payload.notice "ChatBot"
              "Error: You are not recognized. Please rejoin the chat." 5 "m1"⟩]) ∧
     recipientsOf initState (Target.toOne "X") = ["X"]) :=
  ⟨rfl, chatMessage_no_presence initState "X" "hi" "m1" 5 rfl⟩

/-- A state with two connections "A" and "B" present in room "general",
used to exercise the private-message handlers. -/
def pmState : ServerState :=
  ⟨[("A", ⟨"A", "alice", "general"⟩), ("B", ⟨"B", "bob", "general"⟩)], [],
   [("A", "general"), ("B", "general")]⟩

/-- C1: the room that server.js's `privateMessage` handler stores is NOT an
order-independent function of the two identities: with both "A" and "B"
present, A sending to B stores room `private_A_B` while B sending to A
stores room `private_B_A`, and the two differ.  The revised copy of the
server (which sorts the two identities before joining) stores the same
room in both directions, as the spec requires. -/
theorem privateMessage_room_not_symmetric :
    ((privateMessage pmState "A" "B" "hi" "m1" 0).1.store.map Message.room
      = ["private_A_B"]) ∧
    ((privateMessage pmState "B" "A" "hi" "m2" 0).1.store.map Message.room
      = ["private_B_A"]) ∧
    ("private_A_B" : String) ≠ "private_B_A" ∧
    ((privateMessageV2 pmState "A" "B" "hi" "m1" 0).1.store.map Message.room
      = (privateMessageV2 pmState "B" "A" "hi" "m2" 0).1.store.map Message.room) := by
  refine ⟨rfl, rfl, by decide, ?_⟩
  decide

/-- C6 counterexample: a `joinRoom` event whose username and room are both
empty still succeeds — a presence record is created for the connection and
join effects are emitted — so the handler does not validate the fields. -/
theorem joinRoom_empty_fields_counterexample :
    mapGet (joinRoom initState "c1" "" "" "w" "j" 0).1.users "c1" =
      some ⟨"c1", "", ""⟩ ∧
    (joinRoom initState "c1" "" "" "w" "j" 0).2 ≠ [] := by
  refine ⟨rfl, ?_⟩
  decide

/-- C6 amended: the `joinRoom` handler performs no validation of `username`
or `room`: every `joinRoom` event, including one with an empty username or
an empty room, installs a presence record with exactly the supplied values
and emits join effects. -/
theorem joinRoom_no_validation (s : ServerState)
    (conn username room wid jid : String) (now : Nat) :
    mapGet (joinRoom s conn username room wid jid now).1.users conn =
      some ⟨conn, username, room⟩ ∧
    (joinRoom s conn username room wid jid now).2 ≠ [] := by
  constructor
  · cases h : mapGet s.users conn <;>
      simp [joinRoom, h, mapGet_mapSet_self]
  · cases h : mapGet s.users conn <;> simp [joinRoom, h]

/-! ### Read receipts: idempotence of the messageRead handler -/

theorem findMsg_saveMsg (store : List Message) (mid rid : String) (m2 : Message)
    (hs : (findMsg store mid rid).isSome = true)
    (h2 : (m2.id == mid && m2.room == rid) = true) :
    findMsg (saveMsg store mid rid m2) mid rid = some m2 := by
  induction store with
  | nil => simp [findMsg] at hs
  | cons x xs ih =>
      by_cases hx : (x.id == mid && x.room == rid) = true
      · unfold saveMsg
        rw [if_pos hx]
        unfold findMsg
        exact List.find?_cons_of_pos _ h2
      · unfold saveMsg
        rw [if_neg hx]
        have hs2 : (findMsg xs mid rid).isSome = true := by
          unfold findMsg at hs ⊢
          rwa [List.find?_cons_of_neg (p := fun (m : Message) => m.id == mid && m.room == rid) _ hx] at hs
        have hrec := ih hs2
        unfold findMsg at hrec ⊢
        rw [List.find?_cons_of_neg (p := fun (m : Message) => m.id == mid && m.room == rid) _ hx]
        exact hrec

theorem messageRead_second_noop (s : ServerState) (conn messageId roomId : String)
    (user : User) (hu : mapGet s.users conn = some user) :
    messageRead (messageRead s conn messageId roomId).1 conn messageId roomId =
      ((messageRead s conn messageId roomId).1, []) := by
  cases hf : findMsg s.store messageId roomId with
  | none =>
      have h1 : messageRead s conn messageId roomId = (s, []) := by
        simp [messageRead, hu, hf]
      rw [h1]
      simp [messageRead, hu, hf]
  | some m =>
      have hf2 : List.find? (fun mm => mm.id == messageId && mm.room == roomId)
          s.store = some m := hf
      have hpredm : (m.id == messageId && m.room == roomId) = true :=
        List.find?_some (p := fun (mm : Message) => mm.id == messageId && mm.room == roomId) hf2
      by_cases hr : user.id ∈ m.readBy
      · have h1 : messageRead s conn messageId roomId = (s, []) := by
          simp [messageRead, hu, hf, hr]
        rw [h1]
        simp [messageRead, hu, hf, hr]
      · have h1 : (messageRead s conn messageId roomId).1 =
            ⟨s.users,
             saveMsg s.store messageId roomId { m with readBy := m.readBy ++ [user.id] },
             s.transport⟩ := by
          simp [messageRead, hu, hf, hr]
        rw [h1]
        have hfind : findMsg
            (saveMsg s.store messageId roomId { m with readBy := m.readBy ++ [user.id] })
            messageId roomId = some { m with readBy := m.readBy ++ [user.id] } :=
          findMsg_saveMsg _ _ _ _ (by rw [hf]; rfl) hpredm
        have hmem : user.id ∈ ({ m with readBy := m.readBy ++ [user.id] } : Message).readBy := by
          simp
        simp [messageRead, hu, hfind, hmem]

theorem messageRead_readBy_once (s : ServerState) (conn messageId roomId : String)
    (user : User) (hu : mapGet s.users conn = some user) (m : Message)
    (hf : findMsg s.store messageId roomId = some m)
    (hc : m.readBy.count user.id ≤ 1) :
    ∃ m2, findMsg (messageRead s conn messageId roomId).1.store messageId roomId
        = some m2 ∧ m2.readBy.count user.id = 1 := by
  have hf2 : List.find? (fun mm => mm.id == messageId && mm.room == roomId)
      s.store = some m := hf
  have hpredm : (m.id == messageId && m.room == roomId) = true :=
    List.find?_some (p := fun (mm : Message) => mm.id == messageId && mm.room == roomId) hf2
  by_cases hr : user.id ∈ m.readBy
  · refine ⟨m, ?_, ?_⟩
    · have h1 : (messageRead s conn messageId roomId).1 = s := by
        simp [messageRead, hu, hf, hr]
      rw [h1, hf]
    · have hpos : 0 < m.readBy.count user.id := List.count_pos_iff.mpr hr
      omega
  · have h1 : (messageRead s conn messageId roomId).1 =
        ⟨s.users,
         saveMsg s.store messageId roomId { m with readBy := m.readBy ++ [user.id] },
         s.transport⟩ := by
      simp [messageRead, hu, hf, hr]
    refine ⟨{ m with readBy := m.readBy ++ [user.id] }, ?_, ?_⟩
    · rw [h1]
      exact findMsg_saveMsg _ _ _ _ (by rw [hf]; rfl) hpredm
    · have hz : m.readBy.count user.id = 0 := List.count_eq_zero.mpr hr
      simp [List.count_append, hz]

/-- C2: the `messageRead` handler is idempotent.  For a reader with a
presence, (a) applying the handler a second time with the same
`(messageId, roomId)` mutates nothing and broadcasts nothing; (b) if the
message is stored (and its `readBy` list, which the code maintains with set
semantics, holds the reader at most once), then after the two calls the
store holds that message with exactly one `readBy` entry for the reader;
(c) if the message id is not found, the handler mutates nothing and
broadcasts nothing. -/
theorem messageRead_idempotent (s : ServerState) (conn messageId roomId : String)
    (user : User) (hu : mapGet s.users conn = some user) :
    (messageRead (messageRead s conn messageId roomId).1 conn messageId roomId =
      ((messageRead s conn messageId roomId).1, [])) ∧
    (∀ m, findMsg s.store messageId roomId = some m →
       m.readBy.count user.id ≤ 1 →
       ∃ m2, findMsg (messageRead (messageRead s conn messageId roomId).1
                conn messageId roomId).1.store messageId roomId = some m2 ∧
         m2.readBy.count user.id = 1) ∧
    (findMsg s.store messageId roomId = none →
       messageRead s conn messageId roomId = (s, [])) := by
  have hsecond := messageRead_second_noop s conn messageId roomId user hu
  refine ⟨hsecond, fun m hf hc => ?_, fun hf => by simp [messageRead, hu, hf]⟩
  rw [hsecond]
  exact messageRead_readBy_once s conn messageId roomId user hu m hf hc

/-- Concrete state for the messageRead witness: reader "X" present in
"general", one stored message read so far only by "Y". -/
def c2State : ServerState :=
  ⟨[("X", ⟨"X", "alice", "general"⟩)],
   [{ id := "m1", username := "bob", text := "hi", room := "general",
      timestamp := 0, readBy := ["Y"], isPrivate := false }],
   [("X", "general")]⟩

theorem messageRead_idempotent_witness :
    mapGet c2State.users "X" = some ⟨"X", "alice", "general"⟩ ∧
    ((messageRead (messageRead c2State "X" "m1" "general").1 "X" "m1" "general" =
      ((messageRead c2State "X" "m1" "general").1, [])) ∧
    (∀ m, findMsg c2State.store "m1" "general" = some m →
       m.readBy.count (User.mk "X" "alice" "general").id ≤ 1 →
       ∃ m2, findMsg (messageRead (messageRead c2State "X" "m1" "general").1
                "X" "m1" "general").1.store "m1" "general" = some m2 ∧
         m2.readBy.count (User.mk "X" "alice" "general").id = 1) ∧
    (findMsg c2State.store "m1" "general" = none →
       messageRead c2State "X" "m1" "general" = (c2State, []))) :=
  ⟨rfl, messageRead_idempotent c2State "X" "m1" "general" ⟨"X", "alice", "general"⟩ rfl⟩

/-! ### Joining: implicit leave of the prior room -/

theorem not_mem_leaveT_self (t : Transport) (c r : String) :
    (c, r) ∉ leaveT t c r := by
  intro hmem
  rcases List.mem_filter.mp hmem with ⟨_, hpred⟩
  simp at hpred

theorem mem_joinT_iff (t : Transport) (c r : String) (p : String × String) :
    p ∈ joinT t c r ↔ p ∈ t ∨ p = (c, r) := by
  unfold joinT
  by_cases hm : (c, r) ∈ t
  · rw [if_pos hm]
    constructor
    · exact Or.inl
    · rintro (h | rfl)
      · exact h
      · exact hm
  · rw [if_neg hm]
    simp

/-- C7: a `joinRoom` from a connection that already has a presence in
another room first notifies the prior room: the first emission is the
updated roster of the prior room, computed from the presence table before
the new presence is inserted and excluding the joiner; then the new
presence record is installed, the connection is no longer a member of the
prior room, and it is a member of the new room. -/
theorem joinRoom_implicit_leave (s : ServerState)
    (conn username room wid jid : String) (now : Nat) (prev : User)
    (hp : mapGet s.users conn = some prev) (hr : prev.room ≠ room) :
    ((joinRoom s conn username room wid jid now).2).head? =
      some ⟨Target.toRoom prev.room,
        Payload.roomUsers ((mapValues s.users).filter
          (fun u => u.room == prev.room && !(u.id == conn)))⟩ ∧
    mapGet (joinRoom s conn username room wid jid now).1.users conn =
      some ⟨conn, username, room⟩ ∧
    (conn, prev.room) ∉ (joinRoom s conn username room wid jid now).1.transport ∧
    (conn, room) ∈ (joinRoom s conn username room wid jid now).1.transport := by
  refine ⟨by simp [joinRoom, hp], by simp [joinRoom, hp, mapGet_mapSet_self], ?_, ?_⟩
  · have htr : (joinRoom s conn username room wid jid now).1.transport =
        joinT (leaveT s.transport conn prev.room) conn room := by
      simp [joinRoom, hp]
    rw [htr]
    intro hmem
    rcases (mem_joinT_iff _ _ _ _).mp hmem with hin | heq
    · exact not_mem_leaveT_self s.transport conn prev.room hin
    · exact hr (congrArg Prod.snd heq)
  · have htr : (joinRoom s conn username room wid jid now).1.transport =
        joinT (leaveT s.transport conn prev.room) conn room := by
      simp [joinRoom, hp]
    rw [htr]
    exact (mem_joinT_iff _ _ _ _).mpr (Or.inr rfl)

/-- Concrete state for the implicit-leave witness: "A" and "B" present in
room "r1". -/
def c7State : ServerState :=
  ⟨[("A", ⟨"A", "alice", "r1"⟩), ("B", ⟨"B", "bob", "r1"⟩)], [],
   [("A", "r1"), ("B", "r1")]⟩

theorem joinRoom_implicit_leave_witness :
    (mapGet c7State.users "A" = some ⟨"A", "alice", "r1"⟩ ∧
     (User.mk "A" "alice" "r1").room ≠ "r2") ∧
    (((joinRoom c7State "A" "alice" "r2" "w" "j" 0).2).head? =
      some ⟨Target.toRoom (User.mk "A" "alice" "r1").room,
        Payload.roomUsers ((mapValues c7State.users).filter
          (fun u => u.room == (User.mk "A" "alice" "r1").room && !(u.id == "A")))⟩ ∧
    mapGet (joinRoom c7State "A" "alice" "r2" "w" "j" 0).1.users "A" =
      some ⟨"A", "alice", "r2"⟩ ∧
    ("A", (User.mk "A" "alice" "r1").room) ∉
      (joinRoom c7State "A" "alice" "r2" "w" "j" 0).1.transport ∧
    ("A", "r2") ∈ (joinRoom c7State "A" "alice" "r2" "w" "j" 0).1.transport) :=
  ⟨⟨rfl, by decide⟩,
   joinRoom_implicit_leave c7State "A" "alice" "r2" "w" "j" 0
     ⟨"A", "alice", "r1"⟩ rfl (by decide)⟩

/-! ### Disconnecting while alone in a room -/

theorem mem_mapDelete (m : ActiveUsers) (k : String) (p : String × User)
    (h : p ∈ mapDelete m k) : p ∈ m ∧ ¬p.1 = k := by
  induction m with
  | nil => simp [mapDelete] at h
  | cons q qs ih =>
      rcases q with ⟨a, b⟩
      by_cases ha : a = k
      · simp only [mapDelete, beq_iff_eq, ha, if_true] at h
        rcases ih h with ⟨h1, h2⟩
        exact ⟨List.mem_cons_of_mem _ h1, h2⟩
      · simp only [mapDelete, beq_iff_eq, ha, if_false, List.mem_cons] at h
        rcases h with rfl | h
        · exact ⟨List.mem_cons_self _ _, ha⟩
        · rcases ih h with ⟨h1, h2⟩
          exact ⟨List.mem_cons_of_mem _ h1, h2⟩

/-- C9: when a connection disconnects while it is the only member of its
room, removing the presence produces no emissions at all — no leave notice
and no roster update to anyone — and the presence record is gone. -/
theorem disconnect_alone_silent (s : ServerState) (conn did : String) (now : Nat)
    (user : User) (hu : mapGet s.users conn = some user)
    (halone : ∀ p ∈ s.users, p.2.room = user.room → p.1 = conn) :
    (disconnect s conn did now).2 = [] ∧
    mapGet (disconnect s conn did now).1.users conn = none := by
  have hempty : (mapValues (mapDelete s.users conn)).filter
      (fun u => u.room == user.room) = [] := by
    rw [List.filter_eq_nil_iff]
    intro u hu2
    rcases List.mem_map.mp hu2 with ⟨p, hp, rfl⟩
    rcases mem_mapDelete _ _ _ hp with ⟨hpm, hpk⟩
    intro hb
    have hroom : p.2.room = user.room := by simpa using hb
    exact hpk (halone p hpm hroom)
  constructor
  · simp [disconnect, hu, hempty]
  · simp [disconnect, hu, hempty, mapGet_mapDelete_self]

/-- Concrete state for the disconnect-alone witness: only "X" is present,
alone in "general". -/
def c9State : ServerState :=
  ⟨[("X", ⟨"X", "alice", "general"⟩)], [], [("X", "general")]⟩

theorem disconnect_alone_silent_witness :
    (mapGet c9State.users "X" = some ⟨"X", "alice", "general"⟩ ∧
     (∀ p ∈ c9State.users, p.2.room = (User.mk "X" "alice" "general").room → p.1 = "X")) ∧
    ((disconnect c9State "X" "d" 0).2 = [] ∧
     mapGet (disconnect c9State "X" "d" 0).1.users "X" = none) :=
  ⟨⟨rfl, by decide⟩,
   disconnect_alone_silent c9State "X" "d" 0 ⟨"X", "alice", "general"⟩ rfl (by decide)⟩

/-! ### Public chat messages: persistence and room-wide delivery -/

theorem mem_recipientsOf_toRoom (s : ServerState) (r c : String) :
    c ∈ recipientsOf s (Target.toRoom r) ↔ (c, r) ∈ s.transport := by
  simp only [recipientsOf, List.mem_map, List.mem_filter]
  constructor
  · rintro ⟨p, ⟨hp, hpr⟩, rfl⟩
    have : p = (p.1, r) := by
      rcases p with ⟨p1, p2⟩
      simp only [beq_iff_eq] at hpr
      simp [hpr]
    rwa [this] at hp
  · intro h
    exact ⟨(c, r), ⟨h, by simp⟩, rfl⟩

theorem mem_transport_iff_roomsOf (t : Transport) (c r : String) :
    (c, r) ∈ t ↔ r ∈ roomsOf t c := by
  simp only [roomsOf, List.mem_map, List.mem_filter]
  constructor
  · intro h
    exact ⟨(c, r), ⟨h, by simp⟩, rfl⟩
  · rintro ⟨p, ⟨hp, hpc⟩, rfl⟩
    have : p = (c, p.2) := by
      rcases p with ⟨p1, p2⟩
      simp only [beq_iff_eq] at hpc
      simp [hpc]
    rwa [this] at hp

theorem mem_optRoom (o : Option User) (r : String) :
    r ∈ optRoom o ↔ ∃ u, o = some u ∧ u.room = r := by
  cases o <;> simp [optRoom, eq_comm]

/-- C8: a `chatMessage` from a connection with a presence appends to the
store a message whose `room` is the sender's current room, whose
`isPrivate` is false and whose `readBy` is exactly the singleton of the
sender's connection identity, and emits that message to the room; in a
state where transport membership agrees with the presence table, the
recipient set of that emission is exactly the connections whose presence
is in that room, sender included. -/
theorem chatMessage_broadcast (s : ServerState) (conn msgText mid : String)
    (now : Nat) (user : User) (hu : mapGet s.users conn = some user)
    (hinv : transportInv s) :
    chatMessage s conn msgText mid now =
      (⟨s.users,
        s.store ++ [(⟨mid, user.username, msgText, user.room, now, [user.id],
          false, none, none⟩ : Message)],
        s.transport⟩,
       [⟨Target.toRoom user.room,
         Payload.message (⟨mid, user.username, msgText, user.room, now, [user.id],
           false, none, none⟩ : Message)⟩]) ∧
    (∀ c, c ∈ recipientsOf s (Target.toRoom user.room) ↔
       ∃ uc, mapGet s.users c = some uc ∧ uc.room = user.room) ∧
    conn ∈ recipientsOf s (Target.toRoom user.room) := by
  have hiff : ∀ c, c ∈ recipientsOf s (Target.toRoom user.room) ↔
      ∃ uc, mapGet s.users c = some uc ∧ uc.room = user.room := by
    intro c
    rw [mem_recipientsOf_toRoom, mem_transport_iff_roomsOf, hinv c, mem_optRoom]
  refine ⟨by simp [chatMessage, hu], hiff, (hiff conn).mpr ⟨user, hu, rfl⟩⟩

/-- Concrete state for the chat-broadcast witness. -/
def c8State : ServerState :=
  ⟨[("X", ⟨"X", "alice", "general"⟩)], [], [("X", "general")]⟩

theorem c8State_transportInv : transportInv c8State := by
  intro c
  by_cases h : "X" = c
  · subst h
    rfl
  · simp [c8State, roomsOf, mapGet, optRoom, List.filter_cons, h]

theorem chatMessage_broadcast_witness :
    (mapGet c8State.users "X" = some ⟨"X", "alice", "general"⟩ ∧
     transportInv c8State) ∧
    (chatMessage c8State "X" "hi" "m1" 7 =
      (⟨c8State.users,
        c8State.store ++ [(⟨"m1", (User.mk "X" "alice" "general").username, "hi",
          (User.mk "X" "alice" "general").room, 7, [(User.mk "X" "alice" "general").id],
          false, none, none⟩ : Message)],
        c8State.transport⟩,
       [⟨Target.toRoom (User.mk "X" "alice" "general").room,
         Payload.message (⟨"m1", (User.mk "X" "alice" "general").username, "hi",
           (User.mk "X" "alice" "general").room, 7, [(User.mk "X" "alice" "general").id],
           false, none, none⟩ : Message)⟩]) ∧
    (∀ c, c ∈ recipientsOf c8State (Target.toRoom (User.mk "X" "alice" "general").room) ↔
       ∃ uc, mapGet c8State.users c = some uc ∧
         uc.room = (User.mk "X" "alice" "general").room) ∧
    "X" ∈ recipientsOf c8State (Target.toRoom (User.mk "X" "alice" "general").room)) :=
  ⟨⟨rfl, c8State_transportInv⟩,
   chatMessage_broadcast c8State "X" "hi" "m1" 7 ⟨"X", "alice", "general"⟩ rfl
     c8State_transportInv⟩

/-! ### History replay on join -/

/-- C4: on every join, the history delivered to the joining connection is
sent as exactly one `roomMessages` batch addressed to the joiner alone; the
batch is a permutation of the stored messages whose `room` equals the
joined room and whose `isPrivate` is false; the batch is in non-decreasing
timestamp order; and no emission of the handler carries a persisted message
document under the `message` event (history is not replayed as individual
`message` events). -/
theorem joinRoom_history_replay (s : ServerState)
    (conn username room wid jid : String) (now : Nat) :
    ((⟨Target.toOne conn, Payload.roomMessages (findRoomHistory s.store room)⟩ : Emission)
        ∈ (joinRoom s conn username room wid jid now).2) ∧
    (∀ e ∈ (joinRoom s conn username room wid jid now).2,
       (∃ ms, e.payload = Payload.roomMessages ms) →
       e = ⟨Target.toOne conn, Payload.roomMessages (findRoomHistory s.store room)⟩) ∧
    (findRoomHistory s.store room).Perm
      (s.store.filter (fun m => m.room == room && m.isPrivate == false)) ∧
    List.Pairwise tsLe (findRoomHistory s.store room) ∧
    recipientsOf (joinRoom s conn username room wid jid now).1 (Target.toOne conn)
      = [conn] ∧
    (∀ e ∈ (joinRoom s conn username room wid jid now).2,
       ∀ m : Message, e.payload ≠ Payload.message m) := by
  refine ⟨?_, ?_, ?_, ?_, rfl, ?_⟩
  · cases h : mapGet s.users conn <;> simp [joinRoom, h]
  · intro e he hms
    rcases hms with ⟨ms, hpay⟩
    cases h : mapGet s.users conn with
    | none =>
        simp only [joinRoom, h, List.nil_append, List.mem_cons,
          List.not_mem_nil, or_false] at he
        rcases he with rfl | rfl | rfl | rfl <;> simp at hpay ⊢
    | some prev =>
        simp only [joinRoom, h, List.cons_append, List.nil_append, List.mem_cons,
          List.not_mem_nil, or_false] at he
        rcases he with rfl | rfl | rfl | rfl | rfl <;> simp at hpay ⊢
  · unfold findRoomHistory
    exact List.perm_insertionSort tsLe _
  · unfold findRoomHistory
    exact List.sorted_insertionSort tsLe _
  · intro e he m
    cases h : mapGet s.users conn with
    | none =>
        simp only [joinRoom, h, List.nil_append, List.mem_cons,
          List.not_mem_nil, or_false] at he
        rcases he with rfl | rfl | rfl | rfl <;> simp
    | some prev =>
        simp only [joinRoom, h, List.cons_append, List.nil_append, List.mem_cons,
          List.not_mem_nil, or_false] at he
        rcases he with rfl | rfl | rfl | rfl | rfl <;> simp

/-! ### The presence invariant over event sequences -/

theorem stateInv_init : StateInv initState :=
  ⟨List.nodup_nil, fun _ => rfl⟩

theorem stateInv_step (s : ServerState) (ev : Event) (h : StateInv s) :
    StateInv (step s ev) := by
  rcases h with ⟨hnd, hinv⟩
  cases ev with
  | join c u r =>
      cases hg : mapGet s.users c with
      | some prev =>
          have hstep : step s (.join c u r) =
              ⟨mapSet s.users c ⟨c, u, r⟩, s.store,
               joinT (leaveT s.transport c prev.room) c r⟩ := by
            simp [step, joinRoom, hg]
          rw [hstep]
          refine ⟨nodup_mapKeys_mapSet _ _ _ hnd, fun c2 => ?_⟩
          by_cases hc : c2 = c
          · subst hc
            have h0 : roomsOf (leaveT s.transport c2 prev.room) c2 = [] := by
              rw [roomsOf_leaveT_self, hinv c2, hg]
              simp [optRoom]
            rw [show roomsOf (joinT (leaveT s.transport c2 prev.room) c2 r) c2 = [r] from
              roomsOf_joinT_self _ _ _ h0]
            rw [mapGet_mapSet_self]
            rfl
          · rw [roomsOf_joinT_ne _ _ _ _ hc, roomsOf_leaveT_ne _ _ _ _ hc, hinv c2,
              mapGet_mapSet_ne _ _ _ _ hc]
      | none =>
          have hstep : step s (.join c u r) =
              ⟨mapSet s.users c ⟨c, u, r⟩, s.store, joinT s.transport c r⟩ := by
            simp [step, joinRoom, hg]
          rw [hstep]
          refine ⟨nodup_mapKeys_mapSet _ _ _ hnd, fun c2 => ?_⟩
          by_cases hc : c2 = c
          · subst hc
            have h0 : roomsOf s.transport c2 = [] := by
              rw [hinv c2, hg]
              rfl
            rw [show roomsOf (joinT s.transport c2 r) c2 = [r] from
              roomsOf_joinT_self _ _ _ h0]
            rw [mapGet_mapSet_self]
            rfl
          · rw [roomsOf_joinT_ne _ _ _ _ hc, hinv c2, mapGet_mapSet_ne _ _ _ _ hc]
  | leave c =>
      cases hg : mapGet s.users c with
      | none =>
          have hstep : step s (.leave c) = s := by
            simp [step, leaveRoom, hg]
          rw [hstep]
          exact ⟨hnd, hinv⟩
      | some user =>
          have hstep : step s (.leave c) =
              ⟨mapDelete s.users c, s.store, leaveT s.transport c user.room⟩ := by
            simp [step, leaveRoom, hg]
          rw [hstep]
          refine ⟨nodup_mapKeys_mapDelete _ _ hnd, fun c2 => ?_⟩
          by_cases hc : c2 = c
          · subst hc
            rw [roomsOf_leaveT_self, hinv c2, hg, mapGet_mapDelete_self]
            simp [optRoom]
          · rw [roomsOf_leaveT_ne _ _ _ _ hc, hinv c2, mapGet_mapDelete_ne _ _ _ hc]
  | disc c =>
      cases hg : mapGet s.users c with
      | none =>
          have hstep : step s (.disc c) =
              ⟨s.users, s.store, clearT s.transport c⟩ := by
            simp [step, disconnect, hg]
          rw [hstep]
          refine ⟨hnd, fun c2 => ?_⟩
          by_cases hc : c2 = c
          · subst hc
            rw [roomsOf_clearT_self, hg]
            rfl
          · rw [roomsOf_clearT_ne _ _ _ hc, hinv c2]
      | some user =>
          have hstep : step s (.disc c) =
              ⟨mapDelete s.users c, s.store, clearT s.transport c⟩ := by
            cases hre : ((mapValues (mapDelete s.users c)).filter
                (fun u2 => u2.room == user.room)).isEmpty <;>
              simp [step, disconnect, hg, hre]
          rw [hstep]
          refine ⟨nodup_mapKeys_mapDelete _ _ hnd, fun c2 => ?_⟩
          by_cases hc : c2 = c
          · subst hc
            rw [roomsOf_clearT_self, mapGet_mapDelete_self]
            rfl
          · rw [roomsOf_clearT_ne _ _ _ hc, hinv c2, mapGet_mapDelete_ne _ _ _ hc]

theorem stateInv_run (evs : List Event) (s : ServerState) (h : StateInv s) :
    StateInv (runEvents s evs) := by
  induction evs generalizing s with
  | nil => exact h
  | cons ev evs ih =>
      rw [runEvents, List.foldl_cons]
      exact ih (step s ev) (stateInv_step s ev h)

theorem step_users_get (s : ServerState) (ev : Event) (conn : String) :
    mapGet (step s ev).users conn =
      (match ev with
       | .join c u r => if c = conn then some ⟨c, u, r⟩ else mapGet s.users conn
       | .leave c => if c = conn then none else mapGet s.users conn
       | .disc c => if c = conn then none else mapGet s.users conn) := by
  cases ev with
  | join c u r =>
      by_cases hc : c = conn
      · subst hc
        cases hg : mapGet s.users c <;>
          simp [step, joinRoom, hg, mapGet_mapSet_self]
      · cases hg : mapGet s.users c <;>
          simp [step, joinRoom, hg, hc, mapGet_mapSet_ne _ _ _ _ (Ne.symm hc)]
  | leave c =>
      by_cases hc : c = conn
      · subst hc
        cases hg : mapGet s.users c <;>
          simp [step, leaveRoom, hg, mapGet_mapDelete_self]
      · cases hg : mapGet s.users c <;>
          simp [step, leaveRoom, hg, hc, mapGet_mapDelete_ne _ _ _ (Ne.symm hc)]
  | disc c =>
      by_cases hc : c = conn
      · subst hc
        cases hg : mapGet s.users c with
        | none => simp [step, disconnect, hg]
        | some user =>
            cases hre : ((mapValues (mapDelete s.users c)).filter
                (fun u2 => u2.room == user.room)).isEmpty <;>
              simp [step, disconnect, hg, hre, mapGet_mapDelete_self]
      · cases hg : mapGet s.users c with
        | none => simp [step, disconnect, hg, hc]
        | some user =>
            cases hre : ((mapValues (mapDelete s.users c)).filter
                (fun u2 => u2.room == user.room)).isEmpty <;>
              simp [step, disconnect, hg, hre, hc,
                mapGet_mapDelete_ne _ _ _ (Ne.symm hc)]

theorem mapGet_runEvents (evs : List Event) (s : ServerState) (conn : String) :
    mapGet (runEvents s evs).users conn =
      lastSuccessfulJoin (mapGet s.users conn) conn evs := by
  induction evs generalizing s with
  | nil => rfl
  | cons ev evs ih =>
      rw [runEvents, List.foldl_cons]
      rw [show lastSuccessfulJoin (mapGet s.users conn) conn (ev :: evs) =
          lastSuccessfulJoin
            (match ev with
             | .join c u r => if c == conn then some ⟨c, u, r⟩ else mapGet s.users conn
             | .leave c => if c == conn then none else mapGet s.users conn
             | .disc c => if c == conn then none else mapGet s.users conn)
            conn evs from rfl]
      have hrec := ih (step s ev)
      rw [runEvents] at hrec
      rw [hrec, step_users_get]
      congr 1
      cases ev <;> simp [beq_iff_eq]

/-- C3: over every sequence of joinRoom, leaveRoom and disconnect events
run from the initial state, the `activeUsers` map has at most one record
per connection identity (its keys are distinct); the record of each
connection is exactly the one dictated by its most recent join not
followed by a leave or disconnect of that connection; and a connection is
in a room at transport level exactly when its presence record exists and
names that room. -/
theorem presence_unique_reflects_last_join (evs : List Event) :
    (mapKeys (runEvents initState evs).users).Nodup ∧
    (∀ conn, mapGet (runEvents initState evs).users conn =
       lastSuccessfulJoin none conn evs) ∧
    (∀ conn r, r ∈ roomsOf (runEvents initState evs).transport conn ↔
       ∃ u, mapGet (runEvents initState evs).users conn = some u ∧ u.room = r) := by
  have hinv := stateInv_run evs initState stateInv_init
  refine ⟨hinv.1, fun conn => ?_, fun conn r => ?_⟩
  · exact mapGet_runEvents evs initState conn
  · rw [hinv.2 conn]
    exact mem_optRoom _ r
